import Mathlib

/-!
Verification development for the deterministic state core of the massa node
(proof-of-stake final state, final-state finalize protocol, slot timing).

The definitions below are a shallow embedding of the Rust sources:
  * `src/consensus/src/timeslots.rs`
  * `src/massa-pos-exports/src/pos_final_state.rs`
  * `src/massa-final-state/src/final_state.rs`
Machine integers (`u64`, `u8`) are modelled as `Nat` with explicit bound
checks where the source uses checked arithmetic.  Fallible code returns
`Option`/`RunResult`.  Rust panics (`expect`, `assert`, `panic`) are the
`fatal` outcome of `RunResult`; recoverable errors carry a `PosError`.
The key/value store (crate `massa_db`, not part of the sources) and the
slot helpers of `massa-models` are modelled from the specification where
noted.
-/

namespace Massa

/-- Bytes of keys and values are modelled as lists of naturals
(each byte below 256 in real data). -/
abbrev Bytes := List Nat

/-- Largest `u64` value. -/
def U64MAX : Nat := 2 ^ 64 - 1

/-- Checked `u64` addition: `a.checked_add(b)`. -/
def checkedAdd (a b : Nat) : Option Nat :=
  if a + b ≤ U64MAX then some (a + b) else none

/-- Checked `u64` multiplication: `a.checked_mul(b)`. -/
def checkedMul (a b : Nat) : Option Nat :=
  if a * b ≤ U64MAX then some (a * b) else none

/-- Checked `u64` division: `a.checked_div(b)` (fails only on division by zero). -/
def checkedDiv (a b : Nat) : Option Nat :=
  if b = 0 then none else some (a / b)

/-- Checked `u8` addition: `a.checked_add(b)` on a byte-sized integer. -/
def checkedAddU8 (a b : Nat) : Option Nat :=
  if a + b ≤ 255 then some (a + b) else none

/-- Saturating `u64` multiplication: `a.saturating_mul(b)`. -/
def satMul64 (a b : Nat) : Nat := min (a * b) U64MAX

/-- A slot `(period, thread)`; `period` is a `u64`, `thread` a `u8` in the source. -/
structure Slot where
  period : Nat
  thread : Nat
deriving DecidableEq, Repr

/-- Strict lexicographic order on slots: the total order of the specification. -/
def slotLt (a b : Slot) : Prop :=
  a.period < b.period ∨ (a.period = b.period ∧ a.thread < b.thread)

/-- Embedding of `get_block_slot_timestamp` from `src/consensus/src/timeslots.rs`:
`genesis + (t0 / T) * thread + t0 * period` with checked `u64` arithmetic,
`None` meaning the `TimeOverflowError` result. -/
def getBlockSlotTimestamp (threadCount : Nat) (t0 : Nat) (genesisTimestamp : Nat)
    (slot : Slot) : Option Nat :=
  (checkedDiv t0 threadCount).bind fun q =>
    (checkedMul q slot.thread).bind fun base =>
      (checkedMul t0 slot.period).bind fun shift =>
        (checkedAdd genesisTimestamp base).bind fun x =>
          checkedAdd x shift

/-- Embedding of `get_next_block_slot` from `src/consensus/src/timeslots.rs`:
advance the thread, wrapping to the next period on the last thread; `None`
models the `SlotOverflowError`/`ThreadOverflowError` results. -/
def getNextBlockSlot (threadCount : Nat) (slot : Slot) : Option Slot :=
  if slot.thread = threadCount - 1 then
    (checkedAdd slot.period 1).map fun p => Slot.mk p 0
  else
    (checkedAddU8 slot.thread 1).map fun t => Slot.mk slot.period t

lemma getBlockSlotTimestamp_eq {T t0 g : Nat} (hT : T ≠ 0) {s : Slot} {ts : Nat}
    (h : getBlockSlotTimestamp T t0 g s = some ts) :
    ts = g + (t0 / T) * s.thread + t0 * s.period := by
  simp only [getBlockSlotTimestamp, checkedDiv, checkedMul, checkedAdd,
    if_neg hT, Option.some_bind] at h
  by_cases h1 : t0 / T * s.thread ≤ U64MAX
  · rw [if_pos h1, Option.some_bind] at h
    by_cases h2 : t0 * s.period ≤ U64MAX
    · rw [if_pos h2, Option.some_bind] at h
      by_cases h3 : g + t0 / T * s.thread ≤ U64MAX
      · rw [if_pos h3, Option.some_bind] at h
        by_cases h4 : g + t0 / T * s.thread + t0 * s.period ≤ U64MAX
        · rw [if_pos h4] at h
          have := Option.some.inj h
          omega
        · rw [if_neg h4] at h; exact absurd h (by simp)
      · rw [if_neg h3, Option.none_bind] at h; exact absurd h (by simp)
    · rw [if_neg h2, Option.none_bind] at h; exact absurd h (by simp)
  · rw [if_neg h1, Option.none_bind] at h; exact absurd h (by simp)

lemma getBlockSlotTimestamp_pos_of_div {t0 T : Nat} (ht0 : 1 ≤ t0) (hdiv : t0 % T = 0) :
    1 ≤ t0 / T ∧ t0 = (t0 / T) * T := by
  rcases Nat.eq_zero_or_pos T with hT | hT
  · subst hT; simp at hdiv; omega
  have hdvd : T ∣ t0 := Nat.dvd_of_mod_eq_zero hdiv
  have heq : t0 / T * T = t0 := Nat.div_mul_cancel hdvd
  constructor
  · by_contra hlt
    have h0 : t0 / T = 0 := Nat.eq_zero_of_not_pos hlt
    rw [h0, Nat.zero_mul] at heq
    omega
  · exact heq.symm

/-- Claim C8: for every slot and configuration with `thread_count ≥ 1`,
`t0 ≥ 1` and `t0 mod thread_count = 0`, whenever the checked arithmetic
succeeds, `get_block_slot_timestamp` returns
`genesis + (t0/T)*thread + t0*period`; the timestamp of the next slot
(per `get_next_block_slot`) exceeds it by exactly `t0/T`, including the
wrap from the last thread to the next period; and the timestamp is
strictly monotonic in the `(period, thread)` lexicographic order. -/
theorem timeslots_algebra (T t0 g : Nat) (hT : 1 ≤ T) (ht0 : 1 ≤ t0)
    (hdiv : t0 % T = 0) :
    (∀ s ts, getBlockSlotTimestamp T t0 g s = some ts →
        ts = g + (t0 / T) * s.thread + t0 * s.period) ∧
    (∀ s s' a b, getNextBlockSlot T s = some s' →
        getBlockSlotTimestamp T t0 g s = some a →
        getBlockSlotTimestamp T t0 g s' = some b →
        a ≤ b ∧ b - a = t0 / T) ∧
    (∀ s₁ s₂ a₁ a₂, slotLt s₁ s₂ → s₁.thread < T → s₂.thread < T →
        getBlockSlotTimestamp T t0 g s₁ = some a₁ →
        getBlockSlotTimestamp T t0 g s₂ = some a₂ → a₁ < a₂) := by
  have hTne : T ≠ 0 := by omega
  obtain ⟨hq, hqT⟩ := getBlockSlotTimestamp_pos_of_div ht0 hdiv
  refine ⟨fun s ts h => getBlockSlotTimestamp_eq hTne h, ?_, ?_⟩
  · intro s s' a b hnext ha hb
    have ea := getBlockSlotTimestamp_eq hTne ha
    simp only [getNextBlockSlot, checkedAdd, checkedAddU8] at hnext
    have e2 : (t0 / T) * (T - 1) + t0 / T = t0 / T * T := by
      have hTsub : T - 1 + 1 = T := by omega
      calc (t0 / T) * (T - 1) + t0 / T = (t0 / T) * (T - 1 + 1) := by ring
        _ = t0 / T * T := by rw [hTsub]
    split at hnext
    · -- wrap: thread = T - 1, next slot is (period + 1, 0)
      rename_i hth
      by_cases hov : s.period + 1 ≤ U64MAX
      · rw [if_pos hov, Option.map_some'] at hnext
        have hs' := Option.some.inj hnext
        subst hs'
        have eb : b = g + t0 / T * 0 + t0 * (s.period + 1) :=
          getBlockSlotTimestamp_eq hTne hb
        rw [hth] at ea
        have e3 : t0 * (s.period + 1) = t0 * s.period + t0 := by ring
        have e4 : t0 / T * 0 = 0 := by ring
        omega
      · rw [if_neg hov] at hnext; exact absurd hnext (by simp)
    · -- same period, thread + 1
      by_cases hov : s.thread + 1 ≤ 255
      · rw [if_pos hov, Option.map_some'] at hnext
        have hs' := Option.some.inj hnext
        subst hs'
        have eb : b = g + t0 / T * (s.thread + 1) + t0 * s.period :=
          getBlockSlotTimestamp_eq hTne hb
        have e3 : (t0 / T) * (s.thread + 1) = (t0 / T) * s.thread + t0 / T := by ring
        omega
      · rw [if_neg hov] at hnext; exact absurd hnext (by simp)
  · intro s₁ s₂ a₁ a₂ hlt ht1 ht2 h1 h2
    have e1 := getBlockSlotTimestamp_eq hTne h1
    have e2 := getBlockSlotTimestamp_eq hTne h2
    rcases hlt with hp | ⟨hp, hth⟩
    · -- strictly smaller period
      have b1 : (t0 / T) * s₁.thread ≤ (t0 / T) * (T - 1) :=
        Nat.mul_le_mul_left _ (by omega)
      have b2 : (t0 / T) * (T - 1) + t0 / T = t0 / T * T := by
        have hTsub : T - 1 + 1 = T := by omega
        calc (t0 / T) * (T - 1) + t0 / T = (t0 / T) * (T - 1 + 1) := by ring
          _ = t0 / T * T := by rw [hTsub]
      have b3 : t0 * (s₁.period + 1) ≤ t0 * s₂.period :=
        Nat.mul_le_mul_left _ (by omega)
      have b4 : t0 * (s₁.period + 1) = t0 * s₁.period + t0 := by ring
      omega
    · -- same period, strictly smaller thread
      have b1 : (t0 / T) * s₁.thread < (t0 / T) * s₂.thread :=
        mul_lt_mul_of_pos_left hth (by omega)
      rw [hp] at e1
      omega

/-- Witness for claim C8's theorem at the specification's concrete
configuration `T = 2`, `t0 = 2000`, `genesis = 10000`. -/
theorem timeslots_algebra_witness :
    getBlockSlotTimestamp 2 2000 10000 ⟨2, 1⟩ = some 15000 ∧
    15000 = 10000 + (2000 / 2) * 1 + 2000 * 2 ∧
    (10000 : Nat) ≤ 11000 ∧ 11000 - 10000 = 2000 / 2 := by
  have h := timeslots_algebra 2 2000 10000 (by decide) (by decide) (by decide)
  refine ⟨by decide, ?_, ?_⟩
  · exact h.1 ⟨2, 1⟩ 15000 (by decide)
  · exact h.2.1 ⟨0, 0⟩ ⟨0, 1⟩ 10000 11000 (by decide) (by decide) (by decide)

/-! ### Serialization primitives

`U64VarIntSerializer` (used throughout `pos_final_state.rs`) is the LEB128
variable-length integer encoding; its deserializer reads a value and
returns the remaining bytes, failing on truncated input. -/

/-- Fuel-driven helper of `varint` (the fuel bounds the recursion depth
so that the definition is structural and kernel-computable). -/
def varintGo : Nat → Nat → Bytes
  | 0, n => [n]
  | fuel + 1, n =>
    if n < 128 then [n] else (n % 128 + 128) :: varintGo fuel (n / 128)

/-- LEB128 variable-length encoding of a natural number, as produced by
`U64VarIntSerializer.serialize`. -/
def varint (n : Nat) : Bytes := varintGo n n

lemma varintGo_fuel_irrel :
    ∀ fuel fuel' n, n ≤ fuel → n ≤ fuel' → varintGo fuel n = varintGo fuel' n := by
  intro fuel
  induction fuel with
  | zero =>
    intro fuel' n h h'
    have hn : n = 0 := by omega
    subst hn
    cases fuel' <;> simp [varintGo]
  | succ k ih =>
    intro fuel' n h h'
    cases fuel' with
    | zero =>
      have hn : n = 0 := by omega
      subst hn
      simp [varintGo]
    | succ k' =>
      simp only [varintGo]
      split
    -- n < 128: both sides are [n]
      · rfl
      · rename_i hge
        have hlt : n / 128 < n := Nat.div_lt_self (by omega) (by omega)
        have hd : n / 128 ≤ k := by omega
        have hd' : n / 128 ≤ k' := by omega
        rw [ih k' (n / 128) hd hd']

/-- Unfolding equation of `varint`. -/
lemma varint_unfold (n : Nat) :
    varint n = if n < 128 then [n] else (n % 128 + 128) :: varint (n / 128) := by
  unfold varint
  cases n with
  | zero => simp [varintGo]
  | succ m =>
    simp only [varintGo]
    split
    · rfl
    · rename_i hge
      have hlt : (m + 1) / 128 < m + 1 := Nat.div_lt_self (by omega) (by omega)
      have hd : (m + 1) / 128 ≤ m := by omega
      rw [varintGo_fuel_irrel m ((m + 1) / 128) ((m + 1) / 128) hd (Nat.le_refl _)]

/-- LEB128 decoding: returns the decoded value and the remaining bytes,
`none` on truncated input (the deserializer's failure). -/
def varintDecode : Bytes → Option (Nat × Bytes)
  | [] => none
  | b :: rest =>
    if b < 128 then some (b, rest)
    else
      match varintDecode rest with
      | some (v, r) => some (b % 128 + 128 * v, r)
      | none => none

lemma varintDecode_append (n : Nat) (r : Bytes) :
    varintDecode (varint n ++ r) = some (n, r) := by
  induction n using Nat.strong_induction_on with
  | _ n ih =>
    rw [varint_unfold]
    split
    · rename_i h
      simp [varintDecode, h]
    · rename_i h
      simp only [List.cons_append, varintDecode]
      have h128 : ¬ (n % 128 + 128 < 128) := by omega
      rw [if_neg h128]
      simp only [List.append_eq]
      rw [ih (n / 128) (Nat.div_lt_self (by omega) (by omega))]
      simp only [Option.some.injEq, Prod.mk.injEq, and_true]
      rw [Nat.add_mod_right]
      omega

/-- `varint` encodings are prefix-free: equal concatenations decompose. -/
lemma varint_append_inj {n m : Nat} {r s : Bytes}
    (h : varint n ++ r = varint m ++ s) : n = m ∧ r = s := by
  have h1 := varintDecode_append n r
  rw [h, varintDecode_append m s] at h1
  have h2 := Option.some.inj h1
  exact ⟨(congrArg Prod.fst h2).symm, (congrArg Prod.snd h2).symm⟩

/-! ### Bit sequences

The `rng_seed` of a cycle is a `BitVec<u8>` (bitvec crate, `Lsb0` order):
serialized as a varint bit count followed by the bits packed
least-significant-bit first into bytes. -/

/-- Pack up to eight booleans into one byte, least significant bit first. -/
def byteOfBits (bs : List Bool) : Nat :=
  bs.foldr (fun b acc => (cond b 1 0) + 2 * acc) 0

/-- Fuel-driven helper of `bitsToBytes`. -/
def bitsToBytesGo : Nat → List Bool → Bytes
  | 0, _ => []
  | fuel + 1, bs =>
    if bs.isEmpty then [] else byteOfBits (bs.take 8) :: bitsToBytesGo fuel (bs.drop 8)

/-- `BitVec::into_vec`: pack a bit sequence into bytes, eight bits at a
time, the last byte padded with zero bits. -/
def bitsToBytes (bs : List Bool) : Bytes := bitsToBytesGo bs.length bs

/-- The first `count` bits of a natural number, least significant first. -/
def natBits : Nat → Nat → List Bool
  | 0, _ => []
  | k + 1, v => decide (v % 2 = 1) :: natBits k (v / 2)

/-- Unpack bytes into bits, least significant bit of each byte first. -/
def bitsOfBytes (bytes : Bytes) : List Bool :=
  (bytes.map (natBits 8)).flatten

/-- `BitVecSerializer`: length-prefixed bit sequence. -/
def bitvecSer (bs : List Bool) : Bytes :=
  varint bs.length ++ bitsToBytes bs

/-- `BitVecDeserializer`: decode a length-prefixed bit sequence, `none` on
malformed input. -/
def bitvecDeser (v : Bytes) : Option (List Bool) :=
  match varintDecode v with
  | none => none
  | some (n, rest) =>
    if n ≤ 8 * rest.length then some ((bitsOfBytes rest).take n) else none

/-! ### The key/value store

Modelled from the spec: the `massa_db` crate (not among the sources) is a
generic ordered key/value store with atomic write-batches.  The state
column family is an association list from keys to values;
`put_or_update_entry_value` appends a put operation to the batch,
`delete_key` a delete operation, and committing a batch applies its
operations in order. -/

abbrev KV := List (Bytes × Bytes)

/-- Look a key up in the store (first matching entry). -/
def kvGet : KV → Bytes → Option Bytes
  | [], _ => none
  | (k, v) :: rest, key => if k = key then some v else kvGet rest key

/-- Insert or overwrite a key in the store. -/
def kvPut : KV → Bytes → Bytes → KV
  | [], key, val => [(key, val)]
  | (k, v) :: rest, key, val =>
    if k = key then (key, val) :: rest else (k, v) :: kvPut rest key val

/-- Remove a key from the store. -/
def kvDel : KV → Bytes → KV
  | [], _ => []
  | (k, v) :: rest, key =>
    if k = key then kvDel rest key else (k, v) :: kvDel rest key

/-- A write batch: a sequence of put (`some`) and delete (`none`)
operations, applied atomically in order on commit. -/
abbrev DBBatch := List (Bytes × Option Bytes)

/-- Commit a batch: apply its operations in order. -/
def applyBatch (db : KV) (batch : DBBatch) : KV :=
  batch.foldl
    (fun d op =>
      match op.2 with
      | some v => kvPut d op.1 v
      | none => kvDel d op.1)
    db

/-- `MassaDB::put_or_update_entry_value`: record a put in the batch. -/
def putEntry (batch : DBBatch) (k : Bytes) (v : Bytes) : DBBatch :=
  batch ++ [(k, some v)]

/-- `MassaDB::delete_key`: record a deletion in the batch. -/
def delEntry (batch : DBBatch) (k : Bytes) : DBBatch :=
  batch ++ [(k, none)]

/-! ### Key layout of the PoS final state

From the key formatting macros of `pos_final_state.rs`: a cycle's data
lives under `CYCLE_HISTORY_PREFIX ++ serialized cycle`, with a
one-byte ident (complete = 0, rng seed = 1, snapshot = 2, roll count = 3,
production stats = 4) and, for per-address entries, the address bytes.
Deferred credits live under `DEFERRED_CREDITS_PREFIX ++ slot ++ address`.
The prefix strings themselves belong to `massa_db` and are modelled from
the spec's storage layout; addresses are modelled as naturals with an
injective byte encoding. -/

def strBytes (s : String) : Bytes := s.toList.map Char.toNat

def cyclePrefixBytes : Bytes := strBytes "cycle_history/"

def deferredPrefixBytes : Bytes := strBytes "deferred_credits/"

/-- `cycle_history_cycle_prefix`: the key prefix of one cycle. -/
def cyclePrefixOf (cycle : Nat) : Bytes := cyclePrefixBytes ++ varint cycle

/-- Canonical address byte encoding (`Address::prefixed_bytes`). -/
def addrBytes (a : Nat) : Bytes := varint a

/-- `complete_key`. -/
def completeKey (cycle : Nat) : Bytes := cyclePrefixOf cycle ++ [0]

/-- `rng_seed_key`. -/
def rngSeedKey (cycle : Nat) : Bytes := cyclePrefixOf cycle ++ [1]

/-- `final_state_hash_snapshot_key`. -/
def snapshotKey (cycle : Nat) : Bytes := cyclePrefixOf cycle ++ [2]

/-- `roll_count_prefix`. -/
def rollPrefixOf (cycle : Nat) : Bytes := cyclePrefixOf cycle ++ [3]

/-- `roll_count_key`. -/
def rollCountKey (cycle : Nat) (address : Nat) : Bytes :=
  rollPrefixOf cycle ++ addrBytes address

/-- `prod_stats_fail_key`. -/
def prodStatsFailKey (cycle : Nat) (address : Nat) : Bytes :=
  cyclePrefixOf cycle ++ [4] ++ addrBytes address ++ [0]

/-- `prod_stats_success_key`. -/
def prodStatsSuccessKey (cycle : Nat) (address : Nat) : Bytes :=
  cyclePrefixOf cycle ++ [4] ++ addrBytes address ++ [1]

/-- Slot serialization for deferred-credit keys: period then thread. -/
def slotBytes (s : Slot) : Bytes := varint s.period ++ [s.thread]

/-- `deferred_credits_key`. -/
def deferredCreditsKey (slot : Slot) (address : Nat) : Bytes :=
  deferredPrefixBytes ++ slotBytes slot ++ addrBytes address

/-- `OptionSerializer` over hashes: tag byte 0 for `None`, tag byte 1
followed by the hash bytes for `Some`. -/
def optHashSer : Option Bytes → Bytes
  | none => [0]
  | some h => 1 :: h

/-! ### Errors, run outcomes and the PoS final state -/

/-- Errors of `massa-pos-exports` (`PosError`) reachable from the
embedded operations. -/
inductive PosError where
  | CycleUnavailable (cycle : Nat)
  | CycleUnfinished (cycle : Nat)
  | OverflowError (msg : String)
  | ContainerInconsistency (msg : String)
deriving DecidableEq, Repr

/-- Outcome of running an embedded operation: a value, a recoverable
`PosError`, or a Rust panic (`expect`, `assert`, `panic`). -/
inductive RunResult (α : Type) where
  | ok (value : α)
  | err (error : PosError)
  | fatal
deriving DecidableEq, Repr

/-- `ProductionStats` of an address in a cycle. -/
structure ProductionStats where
  block_success_count : Nat
  block_failure_count : Nat
deriving DecidableEq, Repr

/-- `CycleInfo`: the in-memory description of one tracked cycle, as used
by `put_new_cycle_info`. -/
structure CycleInfo where
  cycle : Nat
  complete : Bool
  roll_counts : List (Nat × Nat)
  rng_seed : List Bool
  production_stats : List (Nat × ProductionStats)
  final_state_hash_snapshot : Option Bytes
deriving DecidableEq, Repr

/-- `PoSFinalState`: configuration, the state column family of the shared
store, the cycle history cache (front = oldest, back = newest), and the
initial lookback data built by `PoSFinalState::new`.  Hashes are byte
lists; operations that hash take the digest function `H` as an argument. -/
structure PoSState where
  periods_per_cycle : Nat
  thread_count : Nat
  cycle_history_length : Nat
  db : KV
  cache : List (Nat × Bool)
  initial_rolls : List (Nat × Nat)
  initial_seeds : List Bytes
  initial_ledger_hash : Bytes
deriving DecidableEq, Repr

/-- The initial seed pair built in `PoSFinalState::new`:
`init_seed = H(initial_seed_string)` and
`initial_seeds = [H(init_seed), init_seed]`. -/
def initialSeeds (H : Bytes → Bytes) (initial_seed_string : String) : List Bytes :=
  let init_seed := H (strBytes initial_seed_string)
  [H init_seed, init_seed]

/-- `PoSChanges` emitted by execution for one slot. -/
structure PoSChanges where
  seed_bits : List Bool
  roll_changes : List (Nat × Nat)
  production_stats : List (Nat × ProductionStats)
  deferred_credits : List (Slot × List (Nat × Nat))
deriving DecidableEq, Repr

/-- Modelled from the spec: `Slot::get_cycle` is `period / periods_per_cycle`
(`massa-models` is not among the sources). -/
def slotGetCycle (s : Slot) (periods_per_cycle : Nat) : Nat :=
  s.period / periods_per_cycle

/-- Modelled from the spec: `Slot::is_last_of_cycle` holds on the last
thread of the last period of a cycle. -/
def slotIsLastOfCycle (s : Slot) (periods_per_cycle thread_count : Nat) : Bool :=
  decide (s.period % periods_per_cycle = periods_per_cycle - 1) &&
    decide (s.thread = thread_count - 1)

/-! ### Reading the PoS state from the store -/

/-- `get_cycle_index`: position of a cycle in the history cache, computed
from the front cycle number and the cache length. -/
def getCycleIndex (cache : List (Nat × Bool)) (cycle : Nat) : Option Nat :=
  match cache.head? with
  | none => none
  | some front =>
    if cycle < front.1 then none
    else if cache.length ≤ cycle - front.1 then none
    else some (cycle - front.1)

/-- `get_all_roll_counts`: prefix scan of the roll-count entries of a
cycle, decoding the address from the key remainder and the count from the
value (trailing bytes are ignored by the deserializers). -/
def getAllRollCounts (db : KV) (cycle : Nat) : List (Nat × Nat) :=
  db.filterMap fun kv =>
    if (rollPrefixOf cycle).isPrefixOf kv.1 then
      match varintDecode (kv.1.drop (rollPrefixOf cycle).length), varintDecode kv.2 with
      | some (a, _), some (v, _) => some (a, v)
      | _, _ => none
    else none

/-- `get_cycle_history_rng_seed`: read and deserialize the seed bits of a
cycle; `none` is the double `expect` panic (missing or malformed entry). -/
def getRngSeedVal (db : KV) (cycle : Nat) : Option (List Bool) :=
  (kvGet db (rngSeedKey cycle)).bind bitvecDeser

/-- `get_cycle_history_final_state_hash_snapshot`: read and deserialize
the optional snapshot hash of a cycle; outer `none` is the `expect` panic
(missing or malformed entry). -/
def getSnapshotVal (db : KV) (cycle : Nat) : Option (Option Bytes) :=
  match kvGet db (snapshotKey cycle) with
  | none => none
  | some (0 :: _) => some none
  | some (1 :: h) => some (some h)
  | some _ => none

/-- `get_rolls_for`: roll count of an address at the newest cycle of the
history; `some 0` when the history is empty or the entry is absent,
`none` for the deserialization panic on a malformed value. -/
def getRollsFor (st : PoSState) (addr : Nat) : Option Nat :=
  match st.cache.getLast? with
  | none => some 0
  | some info =>
    match kvGet st.db (rollCountKey info.1 addr) with
    | none => some 0
    | some v => (varintDecode v).map Prod.fst

/-! ### Writing the PoS state -/

/-- `put_cycle_history_complete`: serialize the complete flag as one byte. -/
def putCycleHistoryComplete (batch : DBBatch) (cycle : Nat) (value : Bool) : DBBatch :=
  putEntry batch (completeKey cycle) (if value then [1] else [0])

/-- `put_cycle_history_address_entry`: write the roll count and/or the
production-stat counters of an address in a cycle. -/
def putCycleHistoryAddressEntry (batch : DBBatch) (cycle : Nat) (address : Nat)
    (roll_count : Option Nat) (production_stats : Option ProductionStats) : DBBatch :=
  let batch :=
    match roll_count with
    | some rc => putEntry batch (rollCountKey cycle address) (varint rc)
    | none => batch
  match production_stats with
  | some ps =>
    putEntry
      (putEntry batch (prodStatsFailKey cycle address) (varint ps.block_failure_count))
      (prodStatsSuccessKey cycle address) (varint ps.block_success_count)
  | none => batch

/-- `put_deferred_credits_entry`: write one deferred-credit amount. -/
def putDeferredCreditsEntry (batch : DBBatch) (slot : Slot) (address : Nat)
    (amount : Nat) : DBBatch :=
  putEntry batch (deferredCreditsKey slot address) (varint amount)

/-- `put_new_cycle_info`: write a whole `CycleInfo` to the store through a
batch of its own, committed immediately, and push the cycle at the back of
the history cache. -/
def putNewCycleInfo (st : PoSState) (ci : CycleInfo) : PoSState :=
  let batch : DBBatch := []
  let batch := putCycleHistoryComplete batch ci.cycle ci.complete
  let batch := putEntry batch (rngSeedKey ci.cycle) (bitvecSer ci.rng_seed)
  let batch := putEntry batch (snapshotKey ci.cycle) (optHashSer ci.final_state_hash_snapshot)
  let batch := ci.roll_counts.foldl
    (fun b p => putCycleHistoryAddressEntry b ci.cycle p.1 (some p.2) none) batch
  let batch := ci.production_stats.foldl
    (fun b p => putCycleHistoryAddressEntry b ci.cycle p.1 none (some p.2)) batch
  { st with
    db := applyBatch st.db batch
    cache := st.cache ++ [(ci.cycle, ci.complete)] }

/-- `delete_cycle_info`: delete every store entry under a cycle's prefix
(prefix iteration plus `delete_key`, committed immediately). -/
def deleteCycleInfo : KV → Nat → KV
  | [], _ => []
  | kv :: rest, cycle =>
    if (cyclePrefixOf cycle).isPrefixOf kv.1 then deleteCycleInfo rest cycle
    else kv :: deleteCycleInfo rest cycle

/-- Fuel-driven helper of `shrinkHistory`. -/
def shrinkGo : Nat → PoSState → PoSState
  | 0, st => st
  | fuel + 1, st =>
    match st.cache with
    | [] => st
    | front :: rest =>
      if st.cycle_history_length < st.cache.length then
        shrinkGo fuel { st with cache := rest, db := deleteCycleInfo st.db front.1 }
      else st

/-- The `while` loop of `apply_changes_to_batch`: pop cycles from the
front of the history, deleting their store entries, until the history is
no longer than `cycle_history_length`. -/
def shrinkHistory (st : PoSState) : PoSState := shrinkGo st.cache.length st

/-- `remove_deferred_credits_zeros`: iterate over every entry of the state
column family (`IteratorMode::Start`, no prefix filter), deserialize each
value as an amount, and record a deletion for each zero amount; `none` is
the `expect` panic on a value that does not decode. -/
def removeDeferredCreditsZeros (db : KV) (batch : DBBatch) : Option DBBatch :=
  db.foldl
    (fun acc kv =>
      acc.bind fun b =>
        match varintDecode kv.2 with
        | none => none
        | some (amount, _) => some (if amount = 0 then delEntry b kv.1 else b))
    (some batch)

/-! ### Feeding the selector -/

/-- The inputs handed to `SelectorController::feed_cycle`: the draw cycle,
the lookback roll distribution and the lookback seed. -/
structure FeedData where
  cycle : Nat
  rolls : List (Nat × Nat)
  seed : Bytes
deriving DecidableEq, Repr

/-- The roll/state-hash lookback block of `feed_selector`
(`draw_cycle.checked_sub(3)`): the roll counts and snapshot hash of cycle
`draw_cycle - 3`, or the initial rolls and initial ledger hash. -/
def feedSelectorRolls (st : PoSState) (draw_cycle : Nat) :
    RunResult (List (Nat × Nat) × Bytes) :=
  if 3 ≤ draw_cycle then
    match getCycleIndex st.cache (draw_cycle - 3) with
    | none => .err (.CycleUnavailable (draw_cycle - 3))
    | some i =>
      match st.cache.get? i with
      | none => .fatal
      | some cycle_info =>
        if cycle_info.2 = false then .err (.CycleUnfinished (draw_cycle - 3))
        else
          match getSnapshotVal st.db cycle_info.1 with
          | none => .fatal
          | some none => .fatal
          | some (some state_hash) =>
            .ok (getAllRollCounts st.db cycle_info.1, state_hash)
  else .ok (st.initial_rolls, st.initial_ledger_hash)

/-- The seed lookback block of `feed_selector`
(`draw_cycle.checked_sub(2)`): hash the varint of `draw_cycle - 2`, the
seed bits of that cycle and the lookback state hash, or take
`initial_seeds[draw_cycle]`. -/
def feedSelectorSeed (H : Bytes → Bytes) (st : PoSState) (draw_cycle : Nat)
    (lookback_state_hash : Bytes) : RunResult Bytes :=
  if 2 ≤ draw_cycle then
    match getCycleIndex st.cache (draw_cycle - 2) with
    | none => .err (.CycleUnavailable (draw_cycle - 2))
    | some i =>
      match st.cache.get? i with
      | none => .fatal
      | some cycle_info =>
        if cycle_info.2 = false then .err (.CycleUnfinished (draw_cycle - 2))
        else
          match getRngSeedVal st.db cycle_info.1 with
          | none => .fatal
          | some bits =>
            .ok (H (varint (draw_cycle - 2) ++ bitsToBytes bits ++ lookback_state_hash))
  else
    match st.initial_seeds.get? draw_cycle with
    | none => .fatal
    | some s => .ok s

/-- `feed_selector`: compute the lookback rolls, state hash and seed and
hand them to the selector. -/
def feedSelector (H : Bytes → Bytes) (st : PoSState) (draw_cycle : Nat) :
    RunResult FeedData :=
  match feedSelectorRolls st draw_cycle with
  | .err e => .err e
  | .fatal => .fatal
  | .ok lookback =>
    match feedSelectorSeed H st draw_cycle lookback.2 with
    | .err e => .err e
    | .fatal => .fatal
    | .ok seed => .ok ⟨draw_cycle, lookback.1, seed⟩

/-! ### Applying a slot's PoS changes -/

/-- The history-management step at the start of `apply_changes_to_batch`
(its `if let Some(info) = self.cycle_history_cache.back()` block):
extend the incomplete current cycle in place, or push a fresh incomplete
cycle copying the previous complete cycle's roll counts and shrink the
history, or fail. -/
def historyStep (st : PoSState) (cycle : Nat) : RunResult PoSState :=
  match st.cache.getLast? with
  | some info =>
    if cycle = info.1 ∧ info.2 = false then .ok st
    else if info.1 + 1 = cycle ∧ info.2 = true then
      let roll_counts := getAllRollCounts st.db info.1
      .ok (shrinkHistory (putNewCycleInfo st ⟨cycle, false, roll_counts, [], [], none⟩))
    else .err (.OverflowError "invalid cycle sequence in PoS final state")
  | none => .err (.ContainerInconsistency "PoS history should never be empty here")

/-- `apply_changes_to_batch`: apply one slot's `PoSChanges`.  The history
step may write (and commit) a fresh cycle; the per-slot writes go into the
caller's batch; the zero-sweep runs over the committed store; if the slot
completes its cycle and `feed` is set, the selector is fed for
`cycle + 2`.  Returns the new state, the extended batch and the data fed
to the selector, if any. -/
def applyChangesToBatch (H : Bytes → Bytes) (st : PoSState) (changes : PoSChanges)
    (slot : Slot) (feed : Bool) (batch : DBBatch) :
    RunResult (PoSState × DBBatch × Option FeedData) :=
  let slotsPerCycle := satMul64 st.periods_per_cycle st.thread_count
  let cycle := slotGetCycle slot st.periods_per_cycle
  match historyStep st cycle with
  | .err e => .err e
  | .fatal => .fatal
  | .ok st2 =>
    let complete := slotIsLastOfCycle slot st2.periods_per_cycle st2.thread_count
    let batch := putCycleHistoryComplete batch cycle complete
    match getRngSeedVal st2.db cycle with
    | none => .fatal
    | some rngSeed0 =>
      let rngSeed := rngSeed0 ++ changes.seed_bits
      let batch := putEntry batch (rngSeedKey cycle) (bitvecSer rngSeed)
      let batch := changes.roll_changes.foldl
        (fun b p => putCycleHistoryAddressEntry b cycle p.1 (some p.2) none) batch
      let batch := changes.production_stats.foldl
        (fun b p => putCycleHistoryAddressEntry b cycle p.1 none (some p.2)) batch
      if complete = true ∧ rngSeed.length ≠ slotsPerCycle then .fatal
      else
        let batch := changes.deferred_credits.foldl
          (fun b sl => sl.2.foldl (fun b p => putDeferredCreditsEntry b sl.1 p.1 p.2) b)
          batch
        match removeDeferredCreditsZeros st2.db batch with
        | none => .fatal
        | some batch2 =>
          if complete = true ∧ feed = true then
            match feedSelector H st2 (cycle + 2) with
            | .ok fd => .ok (st2, batch2, some fd)
            | .err e => .err e
            | .fatal => .fatal
          else .ok (st2, batch2, none)

/-! ### History contiguity

The field documentation of `cycle_history_cache` states the invariant the
code maintains: a contiguous cycle history with the newest cycle at the
back.  `get_cycle_index` computes positions from the front cycle number
under that invariant. -/

/-- `contiguousFrom n cache` holds when the cycle numbers of `cache` are
`n, n+1, n+2, …` in order. -/
def contiguousFrom : Nat → List (Nat × Bool) → Bool
  | _, [] => true
  | n, x :: rest => (x.1 == n) && contiguousFrom (n + 1) rest

/-- The cycle history invariant: cycles form a contiguous range starting
at the front entry. -/
def Contiguous (cache : List (Nat × Bool)) : Prop :=
  contiguousFrom (cache.headD (0, false)).1 cache = true

instance (cache : List (Nat × Bool)) : Decidable (Contiguous cache) := by
  unfold Contiguous; infer_instance

lemma contiguousFrom_get? :
    ∀ (l : List (Nat × Bool)) (n i : Nat) (x : Nat × Bool),
      contiguousFrom n l = true → l.get? i = some x → x.1 = n + i := by
  intro l
  induction l with
  | nil => intro n i x _ hx; simp at hx
  | cons y rest ih =>
    intro n i x hc hx
    simp only [contiguousFrom, Bool.and_eq_true, beq_iff_eq] at hc
    cases i with
    | zero =>
      simp only [List.get?] at hx
      obtain rfl := Option.some.inj hx
      omega
    | succ j =>
      simp only [List.get?] at hx
      have := ih (n + 1) j x hc.2 hx
      omega

lemma contiguous_get? {cache : List (Nat × Bool)} {f x : Nat × Bool} {i : Nat}
    (hcont : Contiguous cache) (hf : cache.head? = some f)
    (hx : cache.get? i = some x) : x.1 = f.1 + i := by
  cases cache with
  | nil => simp at hf
  | cons y rest =>
    have hf' : y = f := by simpa using hf
    subst hf'
    exact contiguousFrom_get? _ _ _ _ hcont hx

/-- Under contiguity, a successful `get_cycle_index` returns the position
of an entry carrying exactly the requested cycle number. -/
lemma getCycleIndex_some_inv {cache : List (Nat × Bool)} {c i : Nat}
    (hcont : Contiguous cache) (h : getCycleIndex cache c = some i) :
    ∃ b, cache.get? i = some (c, b) ∧ (c, b) ∈ cache := by
  cases cache with
  | nil => simp [getCycleIndex] at h
  | cons y rest =>
    simp only [getCycleIndex, List.head?] at h
    by_cases h1 : c < y.1
    · rw [if_pos h1] at h; exact absurd h (by simp)
    rw [if_neg h1] at h
    by_cases h2 : (y :: rest).length ≤ c - y.1
    · rw [if_pos h2] at h; exact absurd h (by simp)
    rw [if_neg h2] at h
    obtain rfl := Option.some.inj h
    cases hx : (y :: rest).get? (c - y.1) with
    | none =>
      rw [List.get?_eq_none] at hx
      omega
    | some x =>
      obtain ⟨x1, x2⟩ := x
      have hx1 : x1 = y.1 + (c - y.1) := contiguous_get? hcont rfl hx
      have hx1' : x1 = c := by omega
      refine ⟨x2, ?_, ?_⟩
      · rw [hx1']
      · rw [hx1'] at hx
        exact List.get?_mem hx

/-- Under contiguity, a cycle absent from the history makes
`get_cycle_index` fail. -/
lemma getCycleIndex_none_of_not_mem {cache : List (Nat × Bool)} {c : Nat}
    (hcont : Contiguous cache) (h : ∀ b, (c, b) ∉ cache) :
    getCycleIndex cache c = none := by
  cases hidx : getCycleIndex cache c with
  | none => rfl
  | some i =>
    obtain ⟨b, _, hmem⟩ := getCycleIndex_some_inv hcont hidx
    exact absurd hmem (h b)

/-- Under contiguity, a cycle present in the history is found by
`get_cycle_index` at a position holding that entry. -/
lemma getCycleIndex_some_of_mem {cache : List (Nat × Bool)} {c : Nat} {b : Bool}
    (hcont : Contiguous cache) (h : (c, b) ∈ cache) :
    ∃ i, getCycleIndex cache c = some i ∧ cache.get? i = some (c, b) := by
  cases cache with
  | nil => simp at h
  | cons y rest =>
    obtain ⟨i, hi⟩ := List.mem_iff_get?.mp h
    have hc : c = y.1 + i := by
      have := contiguous_get? hcont rfl hi
      simp only at this
      omega
    have hlen : i < (y :: rest).length := by
      by_contra hge
      rw [List.get?_eq_none.mpr (by omega)] at hi
      exact absurd hi (by simp)
    refine ⟨i, ?_, hi⟩
    simp only [getCycleIndex, List.head?]
    rw [if_neg (by omega), if_neg (by omega)]
    congr 1
    omega

/-- Claim C10: `get_rolls_for` returns 0 when the history is empty or the
address has no roll entry in the newest cycle, and otherwise the decoded
roll count stored for the address in the newest cycle. -/
theorem get_rolls_for_spec (st : PoSState) (addr : Nat) :
    (st.cache = [] → getRollsFor st addr = some 0) ∧
    (∀ c b, st.cache.getLast? = some (c, b) →
      (kvGet st.db (rollCountKey c addr) = none → getRollsFor st addr = some 0) ∧
      (∀ v r, kvGet st.db (rollCountKey c addr) = some (varint v ++ r) →
        getRollsFor st addr = some v)) := by
  constructor
  · intro h
    simp [getRollsFor, h]
  · intro c b hlast
    constructor
    · intro hnone
      simp [getRollsFor, hlast, hnone]
    · intro v r hsome
      simp [getRollsFor, hlast, hsome, varintDecode_append]

/-- Witness for claim C10's theorem: an empty history yields 0, a missing
entry yields 0, a stored entry decodes to its roll count. -/
theorem get_rolls_for_spec_witness :
    getRollsFor ⟨2, 1, 5, [], [], [], [], []⟩ 7 = some 0 ∧
    getRollsFor ⟨2, 1, 5, [], [(0, true)], [], [], []⟩ 7 = some 0 ∧
    getRollsFor ⟨2, 1, 5, [(rollCountKey 0 7, varint 5)], [(0, true)], [], [], []⟩ 7 =
      some 5 := by
  refine ⟨(get_rolls_for_spec ⟨2, 1, 5, [], [], [], [], []⟩ 7).1 rfl, ?_, ?_⟩
  · exact ((get_rolls_for_spec ⟨2, 1, 5, [], [(0, true)], [], [], []⟩ 7).2 0 true
      (by decide)).1 (by decide)
  · exact ((get_rolls_for_spec
      ⟨2, 1, 5, [(rollCountKey 0 7, varint 5)], [(0, true)], [], [], []⟩ 7).2 0 true
      (by decide)).2 5 [] (by decide)

lemma feedSelectorRolls_ok_inv {st : PoSState} {dc : Nat}
    {lb : List (Nat × Nat) × Bytes} (hcont : Contiguous st.cache) (h3 : 3 ≤ dc)
    (h : feedSelectorRolls st dc = .ok lb) :
    (dc - 3, true) ∈ st.cache ∧
    lb.1 = getAllRollCounts st.db (dc - 3) ∧
    getSnapshotVal st.db (dc - 3) = some (some lb.2) := by
  unfold feedSelectorRolls at h
  rw [if_pos h3] at h
  split at h
  · exact absurd h (by simp)
  rename_i i hidx
  split at h
  · exact absurd h (by simp)
  rename_i ci hget
  split at h
  · exact absurd h (by simp)
  rename_i hcomp
  obtain ⟨b, hget', hmem⟩ := getCycleIndex_some_inv hcont hidx
  rw [hget'] at hget
  obtain rfl := Option.some.inj hget
  simp only at hcomp
  have hb : b = true := by
    cases b
    · exact absurd rfl hcomp
    · rfl
  subst hb
  split at h
  · exact absurd h (by simp)
  · exact absurd h (by simp)
  rename_i sh hsnap
  have hlb := RunResult.ok.inj h
  refine ⟨hmem, ?_, ?_⟩
  · rw [← hlb]
  · rw [← hlb]
    exact hsnap

lemma feedSelectorSeed_ok_inv {H : Bytes → Bytes} {st : PoSState} {dc : Nat}
    {lbh sd : Bytes} (hcont : Contiguous st.cache) (h2 : 2 ≤ dc)
    (h : feedSelectorSeed H st dc lbh = .ok sd) :
    (dc - 2, true) ∈ st.cache ∧
    ∃ bits, getRngSeedVal st.db (dc - 2) = some bits ∧
      sd = H (varint (dc - 2) ++ bitsToBytes bits ++ lbh) := by
  unfold feedSelectorSeed at h
  rw [if_pos h2] at h
  split at h
  · exact absurd h (by simp)
  rename_i i hidx
  split at h
  · exact absurd h (by simp)
  rename_i ci hget
  split at h
  · exact absurd h (by simp)
  rename_i hcomp
  obtain ⟨b, hget', hmem⟩ := getCycleIndex_some_inv hcont hidx
  rw [hget'] at hget
  obtain rfl := Option.some.inj hget
  simp only at hcomp
  have hb : b = true := by
    cases b
    · exact absurd rfl hcomp
    · rfl
  subst hb
  split at h
  · exact absurd h (by simp)
  rename_i bits hbits
  have hsd := RunResult.ok.inj h
  exact ⟨hmem, bits, hbits, hsd.symm⟩

/-- Claim C4: on every successful `feed_selector(draw_cycle)` the data fed
to the selector is: for `draw_cycle ≥ 3`, exactly the roll counts stored
at cycle `draw_cycle - 3` and the seed
`H(varint(draw_cycle-2) ++ rng_seed bits of cycle draw_cycle-2 ++ snapshot
hash of cycle draw_cycle-3)`; for `draw_cycle < 2`, the initial rolls and
`initial_seeds[draw_cycle]` where
`initial_seeds = [H(H(initial_seed_string)), H(initial_seed_string)]`. -/
theorem feed_selector_lookback_inputs (H : Bytes → Bytes) (st : PoSState)
    (dc : Nat) (fd : FeedData) (hcont : Contiguous st.cache)
    (hok : feedSelector H st dc = .ok fd) :
    fd.cycle = dc ∧
    (3 ≤ dc →
      fd.rolls = getAllRollCounts st.db (dc - 3) ∧
      ∃ hash bits, getSnapshotVal st.db (dc - 3) = some (some hash) ∧
        getRngSeedVal st.db (dc - 2) = some bits ∧
        fd.seed = H (varint (dc - 2) ++ bitsToBytes bits ++ hash)) ∧
    (dc < 2 → ∀ s, st.initial_seeds = initialSeeds H s →
      fd.rolls = st.initial_rolls ∧
      (dc = 0 → fd.seed = H (H (strBytes s))) ∧
      (dc = 1 → fd.seed = H (strBytes s))) := by
  unfold feedSelector at hok
  split at hok
  · exact absurd hok (by simp)
  · exact absurd hok (by simp)
  rename_i lb hrolls
  split at hok
  · exact absurd hok (by simp)
  · exact absurd hok (by simp)
  rename_i sd hseed
  have hfd := RunResult.ok.inj hok
  refine ⟨by rw [← hfd], ?_, ?_⟩
  · intro h3
    obtain ⟨hmem3, hrolls1, hsnap⟩ := feedSelectorRolls_ok_inv hcont h3 hrolls
    obtain ⟨hmem2, bits, hbits, hsd⟩ :=
      feedSelectorSeed_ok_inv hcont (by omega) hseed
    refine ⟨by rw [← hfd]; exact hrolls1, lb.2, bits, hsnap, hbits, ?_⟩
    rw [← hfd]
    exact hsd
  · intro h2 s hs
    have h3 : ¬ 3 ≤ dc := by omega
    unfold feedSelectorRolls at hrolls
    rw [if_neg h3] at hrolls
    have hlb := RunResult.ok.inj hrolls
    unfold feedSelectorSeed at hseed
    rw [if_neg (by omega)] at hseed
    rw [hs] at hseed
    refine ⟨by rw [← hfd, ← hlb], ?_, ?_⟩
    · intro h0
      subst h0
      simp only [initialSeeds, List.get?] at hseed
      have := RunResult.ok.inj hseed
      rw [← hfd]
      exact this.symm
    · intro h1
      subst h1
      simp only [initialSeeds, List.get?] at hseed
      have := RunResult.ok.inj hseed
      rw [← hfd]
      exact this.symm

/-- Claim C5: for `draw_cycle ≥ 3`, `feed_selector` fails with
`CycleUnavailable(c)` when the required lookback cycle `c`
(`draw_cycle - 3` for rolls, `draw_cycle - 2` for the seed) is absent from
the history, and with `CycleUnfinished(c)` when `c` is present but not
complete; in every such case the result is an error, so the selector is
not fed. -/
theorem feed_selector_lookback_errors (H : Bytes → Bytes) (st : PoSState)
    (dc : Nat) (h3 : 3 ≤ dc) (hcont : Contiguous st.cache) :
    ((∀ b, (dc - 3, b) ∉ st.cache) →
        feedSelector H st dc = .err (.CycleUnavailable (dc - 3))) ∧
    ((dc - 3, false) ∈ st.cache →
        feedSelector H st dc = .err (.CycleUnfinished (dc - 3))) ∧
    (∀ hash, (dc - 3, true) ∈ st.cache →
        getSnapshotVal st.db (dc - 3) = some (some hash) →
        (∀ b, (dc - 2, b) ∉ st.cache) →
        feedSelector H st dc = .err (.CycleUnavailable (dc - 2))) ∧
    (∀ hash, (dc - 3, true) ∈ st.cache →
        getSnapshotVal st.db (dc - 3) = some (some hash) →
        (dc - 2, false) ∈ st.cache →
        feedSelector H st dc = .err (.CycleUnfinished (dc - 2))) := by
  refine ⟨?_, ?_, ?_, ?_⟩
  · intro habs
    have hidx := getCycleIndex_none_of_not_mem hcont habs
    simp [feedSelector, feedSelectorRolls, h3, hidx]
  · intro hmem
    obtain ⟨i, hidx, hget⟩ := getCycleIndex_some_of_mem hcont hmem
    rw [List.get?_eq_getElem?] at hget
    simp [feedSelector, feedSelectorRolls, h3, hidx, hget]
  · intro hash hmem hsnap habs
    obtain ⟨i, hidx, hget⟩ := getCycleIndex_some_of_mem hcont hmem
    rw [List.get?_eq_getElem?] at hget
    have hidx2 := getCycleIndex_none_of_not_mem hcont habs
    have h2 : 2 ≤ dc := by omega
    simp [feedSelector, feedSelectorRolls, feedSelectorSeed, h3, h2,
      hidx, hget, hsnap, hidx2]
  · intro hash hmem hsnap hmem2
    obtain ⟨i, hidx, hget⟩ := getCycleIndex_some_of_mem hcont hmem
    obtain ⟨j, hidx2, hget2⟩ := getCycleIndex_some_of_mem hcont hmem2
    rw [List.get?_eq_getElem?] at hget
    rw [List.get?_eq_getElem?] at hget2
    have h2 : 2 ≤ dc := by omega
    simp [feedSelector, feedSelectorRolls, feedSelectorSeed, h3, h2,
      hidx, hget, hsnap, hidx2, hget2]

/-- A small concrete PoS state with two complete cycles, a snapshot hash
for cycle 0 and seed bits for cycle 1, used to exercise the selector
lookback. -/
def lookbackDemoState : PoSState :=
  { periods_per_cycle := 2, thread_count := 1, cycle_history_length := 5,
    db := [(snapshotKey 0, 1 :: [9]), (rngSeedKey 1, bitvecSer [true]),
           (rollCountKey 0 7, varint 5)],
    cache := [(0, true), (1, true)],
    initial_rolls := [], initial_seeds := [], initial_ledger_hash := [] }

/-- Witness for claim C4's theorem: feeding draw cycle 3 on
`lookbackDemoState` succeeds, and the theorem yields the exact lookback
inputs (rolls of cycle 0, seed built from cycle 1's bits and cycle 0's
snapshot). -/
theorem feed_selector_lookback_inputs_witness :
    (FeedData.mk 3 [(7, 5)] [1, 1, 9]).rolls =
      getAllRollCounts lookbackDemoState.db 0 ∧
    (∃ hash bits, getSnapshotVal lookbackDemoState.db 0 = some (some hash) ∧
      getRngSeedVal lookbackDemoState.db 1 = some bits ∧
      (FeedData.mk 3 [(7, 5)] [1, 1, 9]).seed =
        id (varint 1 ++ bitsToBytes bits ++ hash)) := by
  have h := feed_selector_lookback_inputs id lookbackDemoState 3
      ⟨3, [(7, 5)], [1, 1, 9]⟩ (by decide) (by decide)
  exact h.2.1 (by omega)

/-- Witness for claim C5's theorem: with history `[(5, complete)]`,
feeding draw cycle 6 fails with `CycleUnavailable 3` because lookback
cycle 3 is absent. -/
theorem feed_selector_lookback_errors_witness :
    feedSelector id
      { periods_per_cycle := 2, thread_count := 1, cycle_history_length := 5,
        db := [], cache := [(5, true)], initial_rolls := [],
        initial_seeds := [], initial_ledger_hash := [] } 6 =
      .err (.CycleUnavailable 3) := by
  exact (feed_selector_lookback_errors id
      { periods_per_cycle := 2, thread_count := 1, cycle_history_length := 5,
        db := [], cache := [(5, true)], initial_rolls := [],
        initial_seeds := [], initial_ledger_hash := [] } 6
      (by omega) (by decide)).1 (by decide)

/-! ### Store lemmas -/

/-- Keys of the state column family are pairwise distinct (RocksDB
guarantees this for its key space). -/
def NodupKeys (db : KV) : Prop := (db.map Prod.fst).Nodup

instance (db : KV) : Decidable (NodupKeys db) := by
  unfold NodupKeys; infer_instance

lemma kvGet_kvPut_same (db : KV) (k v) : kvGet (kvPut db k v) k = some v := by
  induction db with
  | nil => simp [kvPut, kvGet]
  | cons e rest ih =>
    by_cases h : e.1 = k
    · simp [kvPut, h, kvGet]
    · obtain ⟨k', v'⟩ := e
      simp only at h
      simp [kvPut, h, kvGet, ih]

lemma kvGet_kvPut_ne (db : KV) {k' k : Bytes} (h : k' ≠ k) (v) :
    kvGet (kvPut db k' v) k = kvGet db k := by
  induction db with
  | nil => simp [kvPut, kvGet, h]
  | cons e rest ih =>
    obtain ⟨k1, v1⟩ := e
    by_cases h1 : k1 = k'
    · subst h1
      simp [kvPut, kvGet, h]
    · simp only [kvPut, if_neg h1]
      by_cases h2 : k1 = k
      · simp [kvGet, h2]
      · simp [kvGet, h2, ih]

lemma kvGet_kvDel_ne (db : KV) {k' k : Bytes} (h : k' ≠ k) :
    kvGet (kvDel db k') k = kvGet db k := by
  induction db with
  | nil => simp [kvDel, kvGet]
  | cons e rest ih =>
    obtain ⟨k1, v1⟩ := e
    by_cases h1 : k1 = k'
    · subst h1
      rw [kvDel, if_pos rfl, kvGet, if_neg (by intro hh; exact h (hh ▸ rfl))]
      exact ih
    · rw [kvDel, if_neg h1]
      by_cases h2 : k1 = k
      · simp [kvGet, h2]
      · simp only [kvGet, if_neg h2]
        exact ih

lemma kvGet_mem {db : KV} {k : Bytes} {v : Bytes} (h : kvGet db k = some v) :
    (k, v) ∈ db := by
  induction db with
  | nil => simp [kvGet] at h
  | cons e rest ih =>
    obtain ⟨k1, v1⟩ := e
    by_cases h1 : k1 = k
    · subst h1
      rw [kvGet, if_pos rfl] at h
      obtain rfl := Option.some.inj h
      exact List.mem_cons_self _ _
    · rw [kvGet, if_neg h1] at h
      exact List.mem_cons_of_mem _ (ih h)

lemma kvGet_of_mem_nodup {db : KV} {k v : Bytes} (hnodup : NodupKeys db)
    (h : (k, v) ∈ db) : kvGet db k = some v := by
  induction db with
  | nil => simp at h
  | cons e rest ih =>
    obtain ⟨k1, v1⟩ := e
    rw [List.mem_cons] at h
    rcases h with h | h
    · obtain ⟨rfl, rfl⟩ := Prod.mk.inj h.symm
      simp [kvGet]
    · have hk1 : k1 ≠ k := by
        intro hh
        subst hh
        unfold NodupKeys at hnodup
        simp only [List.map_cons, List.nodup_cons] at hnodup
        exact hnodup.1 (List.mem_map.mpr ⟨(k1, v), h, rfl⟩)
      rw [kvGet, if_neg hk1]
      exact ih (by
        unfold NodupKeys at hnodup ⊢
        simp only [List.map_cons, List.nodup_cons] at hnodup
        exact hnodup.2) h

lemma mem_val_uniq_nodup {db : KV} {k v v' : Bytes} (hnodup : NodupKeys db)
    (h : (k, v) ∈ db) (h' : (k, v') ∈ db) : v = v' := by
  have e1 := kvGet_of_mem_nodup hnodup h
  have e2 := kvGet_of_mem_nodup hnodup h'
  rw [e1] at e2
  exact Option.some.inj e2

lemma applyBatch_append (db : KV) (b1 b2 : DBBatch) :
    applyBatch db (b1 ++ b2) = applyBatch (applyBatch db b1) b2 :=
  List.foldl_append _ _ _ _

lemma kvGet_applyBatch_ne {batch : DBBatch} {k : Bytes}
    (h : ∀ op ∈ batch, op.1 ≠ k) (db : KV) :
    kvGet (applyBatch db batch) k = kvGet db k := by
  induction batch generalizing db with
  | nil => rfl
  | cons op rest ih =>
    have hop : op.1 ≠ k := h op (List.mem_cons_self _ _)
    have hrest : ∀ op' ∈ rest, op'.1 ≠ k :=
      fun op' hm => h op' (List.mem_cons_of_mem _ hm)
    obtain ⟨k1, ov⟩ := op
    cases ov with
    | some v =>
      show kvGet (applyBatch (kvPut db k1 v) rest) k = kvGet db k
      rw [ih hrest, kvGet_kvPut_ne _ hop]
    | none =>
      show kvGet (applyBatch (kvDel db k1) rest) k = kvGet db k
      rw [ih hrest, kvGet_kvDel_ne _ hop]

lemma foldl_putEntry_map {α : Type} (f g : α → Bytes) :
    ∀ (l : List α) (b : DBBatch),
      l.foldl (fun acc p => putEntry acc (f p) (g p)) b =
        b ++ l.map (fun p => (f p, some (g p))) := by
  intro l
  induction l with
  | nil => intro b; simp
  | cons p rest ih =>
    intro b
    simp only [List.foldl_cons, List.map_cons]
    rw [ih]
    simp [putEntry, List.append_assoc]

/-! ### Key disjointness -/

lemma varint_inj {a a' : Nat} (h : varint a = varint a') : a = a' := by
  have h2 : varint a ++ [] = varint a' ++ [] := by rw [h]
  exact (varint_append_inj h2).1

lemma cyclePrefixOf_append_inj {c c' : Nat} {r r' : Bytes}
    (h : cyclePrefixOf c ++ r = cyclePrefixOf c' ++ r') : c = c' ∧ r = r' := by
  unfold cyclePrefixOf at h
  rw [List.append_assoc, List.append_assoc] at h
  exact varint_append_inj (List.append_cancel_left h)

lemma rollCountKey_eq (c a : Nat) :
    rollCountKey c a = cyclePrefixOf c ++ (3 :: varint a) := by
  simp [rollCountKey, rollPrefixOf, addrBytes, List.append_assoc]

lemma completeKey_eq (c : Nat) : completeKey c = cyclePrefixOf c ++ (0 :: []) := rfl

lemma rngSeedKey_eq (c : Nat) : rngSeedKey c = cyclePrefixOf c ++ (1 :: []) := rfl

lemma snapshotKey_eq (c : Nat) : snapshotKey c = cyclePrefixOf c ++ (2 :: []) := rfl

lemma rollCountKey_inj {c c' a a' : Nat}
    (h : rollCountKey c a = rollCountKey c' a') : c = c' ∧ a = a' := by
  rw [rollCountKey_eq, rollCountKey_eq] at h
  obtain ⟨hc, hr⟩ := cyclePrefixOf_append_inj h
  refine ⟨hc, varint_inj ?_⟩
  injection hr

lemma cycleIdent_ne {c c' : Nat} {i j : Nat} {r r' : Bytes} (hij : i ≠ j) :
    cyclePrefixOf c ++ (i :: r) ≠ cyclePrefixOf c' ++ (j :: r') := by
  intro h
  obtain ⟨_, h2⟩ := cyclePrefixOf_append_inj h
  injection h2 with hi _
  exact hij hi

lemma varint_prefix {c C : Nat} {r : Bytes} (h : varint c <+: varint C ++ r) :
    c = C := by
  obtain ⟨t, ht⟩ := h
  exact (varint_append_inj ht).1

lemma cyclePrefix_isPrefixOf_iff {c C : Nat} {r : Bytes} :
    (cyclePrefixOf c).isPrefixOf (cyclePrefixOf C ++ r) = true ↔ c = C := by
  rw [List.isPrefixOf_iff_prefix]
  constructor
  · intro h
    unfold cyclePrefixOf at h
    rw [List.append_assoc] at h
    exact varint_prefix ((List.prefix_append_right_inj _).mp h)
  · intro h
    subst h
    exact List.prefix_append _ _

lemma kvGet_deleteCycleInfo_ne {db : KV} {cy : Nat} {k : Bytes}
    (h : (cyclePrefixOf cy).isPrefixOf k = false) :
    kvGet (deleteCycleInfo db cy) k = kvGet db k := by
  induction db with
  | nil => rfl
  | cons e rest ih =>
    obtain ⟨k1, v1⟩ := e
    by_cases h1 : k1 = k
    · subst h1
      rw [deleteCycleInfo, if_neg (by rw [h]; intro hh; cases hh),
        kvGet, if_pos rfl, kvGet, if_pos rfl]
    · rw [deleteCycleInfo]
      by_cases hp : (cyclePrefixOf cy).isPrefixOf k1 = true
      · rw [if_pos hp, kvGet, if_neg h1]
        exact ih
      · rw [if_neg hp, kvGet, if_neg h1, kvGet, if_neg h1]
        exact ih

/-! ### Characterizing the history shrink and the roll-count copy -/

lemma shrinkGo_spec : ∀ (fuel : Nat) (st : PoSState), st.cache.length ≤ fuel →
    shrinkGo fuel st =
      { st with
        cache := st.cache.drop (st.cache.length - st.cycle_history_length),
        db := (st.cache.take (st.cache.length - st.cycle_history_length)).foldl
          (fun d x => deleteCycleInfo d x.1) st.db } := by
  intro fuel
  induction fuel with
  | zero =>
    intro st hlen
    obtain ⟨p, t, chl, db, cache, ir, isd, il⟩ := st
    have hnil : cache = [] := List.length_eq_zero.mp (Nat.le_zero.mp hlen)
    subst hnil
    simp [shrinkGo]
  | succ fuel ih =>
    intro st hlen
    obtain ⟨p, t, chl, db, cache, ir, isd, il⟩ := st
    cases cache with
    | nil => simp [shrinkGo]
    | cons front rest =>
      simp only [List.length_cons] at hlen
      by_cases hlt : chl < (front :: rest).length
      · have hstep : shrinkGo (fuel + 1)
            (PoSState.mk p t chl db (front :: rest) ir isd il) =
            shrinkGo fuel
              (PoSState.mk p t chl (deleteCycleInfo db front.1) rest ir isd il) := by
          simp only [shrinkGo]
          rw [if_pos hlt]
        rw [hstep, ih _ (by simpa using Nat.le_of_succ_le_succ (by simpa using hlen))]
        simp only [List.length_cons] at hlt ⊢
        have hk : rest.length + 1 - chl = (rest.length - chl) + 1 := by omega
        rw [hk, List.drop_succ_cons, List.take_succ_cons, List.foldl_cons]
      · have h0 : (front :: rest).length - chl = 0 := by
          simp only [List.length_cons] at hlt ⊢
          omega
        simp only [shrinkGo]
        rw [if_neg hlt, h0]
        simp

/-- Well-formedness of the roll entries of one cycle in the store: every
key under the cycle's roll prefix is a proper roll-count key with a varint
value (the shape this module itself writes). -/
def RollEntriesWF (db : KV) (c : Nat) : Prop :=
  ∀ kv ∈ db, (rollPrefixOf c).isPrefixOf kv.1 = true →
    ∃ a v, kv = (rollCountKey c a, varint v)

lemma rollPrefix_isPrefixOf_rollKey (c a : Nat) :
    (rollPrefixOf c).isPrefixOf (rollCountKey c a) = true := by
  rw [List.isPrefixOf_iff_prefix]
  exact List.prefix_append _ _

lemma drop_rollPrefix (c a : Nat) :
    (rollCountKey c a).drop (rollPrefixOf c).length = varint a := by
  unfold rollCountKey addrBytes
  rw [List.drop_left]

lemma varintDecode_exact (n : Nat) : varintDecode (varint n) = some (n, []) := by
  have h := varintDecode_append n []
  rwa [List.append_nil] at h

lemma mem_getAllRollCounts {db : KV} {c a v : Nat} (hwf : RollEntriesWF db c) :
    (a, v) ∈ getAllRollCounts db c ↔ (rollCountKey c a, varint v) ∈ db := by
  unfold getAllRollCounts
  rw [List.mem_filterMap]
  constructor
  · rintro ⟨kv, hkv, hf⟩
    by_cases hp : (rollPrefixOf c).isPrefixOf kv.1 = true
    · obtain ⟨a', v', rfl⟩ := hwf kv hkv hp
      rw [if_pos hp] at hf
      simp only [drop_rollPrefix, varintDecode_exact] at hf
      obtain ⟨rfl, rfl⟩ := Prod.mk.inj (Option.some.inj hf).symm
      exact hkv
    · rw [if_neg hp] at hf
      exact absurd hf (by simp)
  · intro hmem
    refine ⟨(rollCountKey c a, varint v), hmem, ?_⟩
    rw [if_pos (rollPrefix_isPrefixOf_rollKey c a)]
    simp only [drop_rollPrefix, varintDecode_exact]

lemma getAllRollCounts_val_uniq {db : KV} {c a v v' : Nat}
    (hnodup : NodupKeys db) (hwf : RollEntriesWF db c)
    (h : (a, v) ∈ getAllRollCounts db c) (h' : (a, v') ∈ getAllRollCounts db c) :
    v = v' := by
  have m1 := (mem_getAllRollCounts hwf).mp h
  have m2 := (mem_getAllRollCounts hwf).mp h'
  exact varint_inj (mem_val_uniq_nodup hnodup m1 m2)

lemma kvGet_rollPuts_mem (C : Nat) :
    ∀ (l : List (Nat × Nat)) (dbx : KV) (a v : Nat),
      (a, v) ∈ l → (∀ v', (a, v') ∈ l → v' = v) →
      kvGet (applyBatch dbx (l.map fun p => (rollCountKey C p.1, some (varint p.2))))
        (rollCountKey C a) = some (varint v) := by
  intro l
  induction l using List.reverseRecOn with
  | nil => intro dbx a v hm _; simp at hm
  | append_singleton l' p ih =>
    intro dbx a v hm huniq
    obtain ⟨pa, pv⟩ := p
    rw [List.map_append, applyBatch_append]
    show kvGet (kvPut _ (rollCountKey C pa) (varint pv)) (rollCountKey C a) = _
    by_cases hpa : pa = a
    · subst hpa
      have hv : pv = v := huniq pv (by simp)
      subst hv
      exact kvGet_kvPut_same _ _ _
    · have hne : rollCountKey C pa ≠ rollCountKey C a := by
        intro hh
        exact hpa (rollCountKey_inj hh).2
      rw [kvGet_kvPut_ne _ hne]
      have hm' : (a, v) ∈ l' := by
        rcases List.mem_append.mp hm with h | h
        · exact h
        · simp at h
          exact absurd h.1.symm hpa
      exact ih dbx a v hm' (fun v' hv' => huniq v' (List.mem_append_left _ hv'))

lemma kvGet_rollPuts_not_mem (C : Nat) (l : List (Nat × Nat)) (dbx : KV) (a : Nat)
    (h : ∀ v, (a, v) ∉ l) :
    kvGet (applyBatch dbx (l.map fun p => (rollCountKey C p.1, some (varint p.2))))
      (rollCountKey C a) = kvGet dbx (rollCountKey C a) := by
  apply kvGet_applyBatch_ne
  intro op hop
  obtain ⟨p, hp, rfl⟩ := List.mem_map.mp hop
  intro hh
  have := (rollCountKey_inj hh).2
  exact h p.2 (by
    have hpp : p = (a, p.2) := by
      obtain ⟨p1, p2⟩ := p
      simp only at this ⊢
      rw [this]
    rw [← hpp]
    exact hp)

lemma kvGet_foldl_deleteCycleInfo (l : List (Nat × Bool)) (k : Bytes) :
    ∀ dbx, (∀ x ∈ l, (cyclePrefixOf x.1).isPrefixOf k = false) →
      kvGet (l.foldl (fun d x => deleteCycleInfo d x.1) dbx) k = kvGet dbx k := by
  induction l with
  | nil => intro dbx _; rfl
  | cons x rest ih =>
    intro dbx h
    rw [List.foldl_cons, ih _ (fun y hy => h y (List.mem_cons_of_mem _ hy)),
      kvGet_deleteCycleInfo_ne (h x (List.mem_cons_self _ _))]

/-- The facts established by the push branch of the history step: pushing
a fresh incomplete cycle `C + 1`, copying cycle `C`'s roll counts, then
shrinking the history from the front. -/
lemma push_cycle_facts (st : PoSState) (C : Nat)
    (hchl : 1 ≤ st.cycle_history_length) (hnodup : NodupKeys st.db)
    (hwf : RollEntriesWF st.db C)
    (hfresh : ∀ kv ∈ st.db, (cyclePrefixOf (C + 1)).isPrefixOf kv.1 = false)
    (hbound : ∀ x ∈ st.cache, x.1 < C + 1) :
    (shrinkHistory (putNewCycleInfo st
        ⟨C + 1, false, getAllRollCounts st.db C, [], [], none⟩)).cache =
      (st.cache ++ [(C + 1, false)]).drop
        (st.cache.length + 1 - st.cycle_history_length) ∧
    (shrinkHistory (putNewCycleInfo st
        ⟨C + 1, false, getAllRollCounts st.db C, [], [], none⟩)).cache.length ≤
      st.cycle_history_length ∧
    ∀ a, kvGet (shrinkHistory (putNewCycleInfo st
        ⟨C + 1, false, getAllRollCounts st.db C, [], [], none⟩)).db
        (rollCountKey (C + 1) a) =
      kvGet st.db (rollCountKey C a) := by
  set RC := getAllRollCounts st.db C with hRC
  set stP := putNewCycleInfo st ⟨C + 1, false, RC, [], [], none⟩ with hstP
  have hcacheP : stP.cache = st.cache ++ [(C + 1, false)] := rfl
  have hchlP : stP.cycle_history_length = st.cycle_history_length := rfl
  have hdbP : stP.db = applyBatch st.db
      ([(completeKey (C + 1), some [0]),
        (rngSeedKey (C + 1), some (bitvecSer [])),
        (snapshotKey (C + 1), some (optHashSer none))] ++
       RC.map (fun p => (rollCountKey (C + 1) p.1, some (varint p.2)))) := by
    rw [hstP]
    unfold putNewCycleInfo
    simp only [List.foldl_nil]
    rw [show (fun b (p : Nat × Nat) =>
        putCycleHistoryAddressEntry b
          (CycleInfo.mk (C + 1) false RC [] [] none).cycle p.1 (some p.2) none) =
      (fun b (p : Nat × Nat) =>
        putEntry b (rollCountKey (C + 1) p.1) (varint p.2)) from rfl]
    rw [foldl_putEntry_map]
    rfl
  have hshrink := shrinkGo_spec stP.cache.length stP (Nat.le_refl _)
  have hlenP : stP.cache.length = st.cache.length + 1 := by
    rw [hcacheP, List.length_append]
    rfl
  have hk : stP.cache.length - stP.cycle_history_length =
      st.cache.length + 1 - st.cycle_history_length := by
    rw [hlenP, hchlP]
  have hkle : st.cache.length + 1 - st.cycle_history_length ≤ st.cache.length := by
    omega
  have htake : stP.cache.take (st.cache.length + 1 - st.cycle_history_length) =
      st.cache.take (st.cache.length + 1 - st.cycle_history_length) := by
    rw [hcacheP]
    exact List.take_append_of_le_length hkle
  show (shrinkHistory stP).cache = _ ∧ (shrinkHistory stP).cache.length ≤ _ ∧ _
  unfold shrinkHistory
  rw [hshrink]
  refine ⟨by rw [hk, hcacheP], ?_, ?_⟩
  · simp only [hk, hcacheP, List.length_drop, List.length_append]
    simp only [List.length_cons, List.length_nil]
    omega
  · intro a
    simp only [hk, htake]
    rw [kvGet_foldl_deleteCycleInfo]
    swap
    · intro x hx
      have hxc : x ∈ st.cache := List.mem_of_mem_take hx
      have hxlt := hbound x hxc
      cases hpre : (cyclePrefixOf x.1).isPrefixOf (rollCountKey (C + 1) a) with
      | false => rfl
      | true =>
        rw [rollCountKey_eq] at hpre
        have := cyclePrefix_isPrefixOf_iff.mp hpre
        omega
    rw [hdbP, applyBatch_append]
    have hhdr : kvGet (applyBatch st.db
        [(completeKey (C + 1), some [0]),
         (rngSeedKey (C + 1), some (bitvecSer [])),
         (snapshotKey (C + 1), some (optHashSer none))]) (rollCountKey (C + 1) a) =
        kvGet st.db (rollCountKey (C + 1) a) := by
      apply kvGet_applyBatch_ne
      intro op hop
      simp only [List.mem_cons, List.mem_singleton] at hop
      rcases hop with rfl | rfl | rfl | h
      · rw [completeKey_eq, rollCountKey_eq]
        exact cycleIdent_ne (by omega)
      · rw [rngSeedKey_eq, rollCountKey_eq]
        exact cycleIdent_ne (by omega)
      · rw [snapshotKey_eq, rollCountKey_eq]
        exact cycleIdent_ne (by omega)
      · simp at h
    have hfreshKey : kvGet st.db (rollCountKey (C + 1) a) = none := by
      cases hcase : kvGet st.db (rollCountKey (C + 1) a) with
      | none => rfl
      | some w =>
        have hmem := kvGet_mem hcase
        have := hfresh _ hmem
        rw [rollCountKey_eq] at this
        rw [cyclePrefix_isPrefixOf_iff.mpr rfl] at this
        cases this
    cases hcase : kvGet st.db (rollCountKey C a) with
    | none =>
      have hnot : ∀ v, (a, v) ∉ RC := by
        intro v hv
        have hm := (mem_getAllRollCounts hwf).mp hv
        rw [kvGet_of_mem_nodup hnodup hm] at hcase
        cases hcase
      rw [kvGet_rollPuts_not_mem _ _ _ _ hnot, hhdr, hfreshKey]
    | some w =>
      have hmemdb := kvGet_mem hcase
      obtain ⟨a', v', hkv⟩ := hwf _ hmemdb (rollPrefix_isPrefixOf_rollKey C a)
      have hkey : rollCountKey C a = rollCountKey C a' := congrArg Prod.fst hkv
      obtain ⟨-, ha⟩ := rollCountKey_inj hkey
      subst ha
      have hw : w = varint v' := congrArg Prod.snd hkv
      have hmemdb' : (rollCountKey C a, varint v') ∈ st.db := by
        rw [← hkv]
        exact hmemdb
      have hmemRC : (a, v') ∈ RC := (mem_getAllRollCounts hwf).mpr hmemdb'
      have huniq : ∀ v'', (a, v'') ∈ RC → v'' = v' :=
        fun v'' hv'' => getAllRollCounts_val_uniq hnodup hwf hv'' hmemRC
      rw [kvGet_rollPuts_mem (C + 1) RC _ a v' hmemRC huniq, hw]

/-- Claim C6: the history-management step of `apply_changes_to_batch` at a
slot of cycle `C`: an incomplete back cycle `C` is extended in place; a
complete back cycle `C - 1` causes a fresh incomplete cycle `C` to be
pushed whose roll counts are copied from cycle `C - 1`'s stored roll
counts, and the history is shrunk from the front to at most
`cycle_history_length`; any other back condition (including a complete
back `C`, a gap, or an empty history) makes `apply_changes_to_batch` fail
with an error, feeding no changes for that slot. -/
theorem apply_changes_history_management (H : Bytes → Bytes) (ch : PoSChanges)
    (slot : Slot) (feed : Bool) (batch : DBBatch) (st : PoSState) :
    (st.cache.getLast? = some (slotGetCycle slot st.periods_per_cycle, false) →
        historyStep st (slotGetCycle slot st.periods_per_cycle) = .ok st) ∧
    (∀ info, st.cache.getLast? = some info →
        ¬(slotGetCycle slot st.periods_per_cycle = info.1 ∧ info.2 = false) →
        ¬(info.1 + 1 = slotGetCycle slot st.periods_per_cycle ∧ info.2 = true) →
        applyChangesToBatch H st ch slot feed batch =
          .err (.OverflowError "invalid cycle sequence in PoS final state")) ∧
    (st.cache.getLast? = none →
        applyChangesToBatch H st ch slot feed batch =
          .err (.ContainerInconsistency "PoS history should never be empty here")) ∧
    (∀ C, st.cache.getLast? = some (C, true) →
        C + 1 = slotGetCycle slot st.periods_per_cycle →
        1 ≤ st.cycle_history_length → NodupKeys st.db →
        RollEntriesWF st.db C →
        (∀ kv ∈ st.db, (cyclePrefixOf (C + 1)).isPrefixOf kv.1 = false) →
        (∀ x ∈ st.cache, x.1 < C + 1) →
        ∃ st2, historyStep st (slotGetCycle slot st.periods_per_cycle) = .ok st2 ∧
          st2.cache = (st.cache ++ [(C + 1, false)]).drop
              (st.cache.length + 1 - st.cycle_history_length) ∧
          st2.cache.length ≤ st.cycle_history_length ∧
          ∀ a, kvGet st2.db (rollCountKey (C + 1) a) =
            kvGet st.db (rollCountKey C a)) := by
  refine ⟨?_, ?_, ?_, ?_⟩
  · intro hlast
    simp [historyStep, hlast]
  · intro info hlast hn1 hn2
    have hhs : historyStep st (slotGetCycle slot st.periods_per_cycle) =
        .err (.OverflowError "invalid cycle sequence in PoS final state") := by
      simp only [historyStep, hlast]
      rw [if_neg hn1, if_neg hn2]
    simp only [applyChangesToBatch, hhs]
  · intro hlast
    have hhs : historyStep st (slotGetCycle slot st.periods_per_cycle) =
        .err (.ContainerInconsistency "PoS history should never be empty here") := by
      simp only [historyStep, hlast]
    simp only [applyChangesToBatch, hhs]
  · intro C hlast hCeq hchl hnodup hwf hfresh hbound
    have hhs : historyStep st (slotGetCycle slot st.periods_per_cycle) =
        .ok (shrinkHistory (putNewCycleInfo st
          ⟨C + 1, false, getAllRollCounts st.db C, [], [], none⟩)) := by
      simp only [historyStep, hlast]
      rw [if_neg (by simp), if_pos ⟨hCeq, trivial⟩, ← hCeq]
    obtain ⟨h1, h2, h3⟩ := push_cycle_facts st C hchl hnodup hwf hfresh hbound
    exact ⟨_, hhs, h1, h2, h3⟩

/-- Witness for claim C6's theorem: with history `[(0, complete)]`,
history length 1, and one roll entry for cycle 0, a slot of cycle 1
pushes a fresh incomplete cycle 1 with cycle 0's roll counts and shrinks
the history to `[(1, incomplete)]`. -/
theorem apply_changes_history_management_witness :
    ∃ st2, historyStep
        ⟨2, 1, 1, [(rollCountKey 0 7, varint 5)], [(0, true)], [], [], []⟩
        (slotGetCycle ⟨2, 0⟩ 2) = .ok st2 ∧
      st2.cache = ([(0, true)] ++ [(1, false)]).drop 1 ∧
      st2.cache.length ≤ 1 ∧
      ∀ a, kvGet st2.db (rollCountKey 1 a) =
        kvGet [(rollCountKey 0 7, varint 5)] (rollCountKey 0 a) := by
  have hwf : RollEntriesWF [(rollCountKey 0 7, varint 5)] 0 := by
    intro kv hkv _
    simp only [List.mem_singleton] at hkv
    subst hkv
    exact ⟨7, 5, rfl⟩
  exact (apply_changes_history_management id ⟨[], [], [], []⟩ ⟨2, 0⟩ false []
      ⟨2, 1, 1, [(rollCountKey 0 7, varint 5)], [(0, true)], [], [], []⟩).2.2.2
      0 (by decide) (by decide) (by decide) (by decide) hwf (by decide) (by decide)

/-- The committed store after a successful `apply_changes_to_batch`
followed by the commit of the produced batch. -/
def finalStoreAfter (r : RunResult (PoSState × DBBatch × Option FeedData)) :
    Option KV :=
  match r with
  | .ok (st2, batch, _) => some (applyBatch st2.db batch)
  | _ => none

/-- Claim C1 (refuting evaluation): `apply_changes_to_batch` with the roll
change `7 ↦ 0` at slot `(0,0)` writes the roll-count entry with value
`varint 0` instead of deleting it, so after the batch commit the cycle's
roll counts contain a zero entry. -/
theorem apply_changes_writes_zero_roll_entry :
    (finalStoreAfter (applyChangesToBatch id
        { periods_per_cycle := 2, thread_count := 1, cycle_history_length := 5,
          db := [(rngSeedKey 0, bitvecSer [true])], cache := [(0, false)],
          initial_rolls := [], initial_seeds := [], initial_ledger_hash := [] }
        { seed_bits := [false], roll_changes := [(7, 0)], production_stats := [],
          deferred_credits := [] }
        ⟨0, 0⟩ false [])).bind (fun db => kvGet db (rollCountKey 0 7)) =
      some (varint 0) := by
  rfl

/-- Claim C2 (refuting evaluation): a deferred credit set to zero by the
same `apply_changes_to_batch` call survives the commit: the zero-sweep
runs over the committed store and cannot see the zero amount sitting in
the not-yet-committed batch. -/
theorem apply_changes_keeps_zero_deferred_credit :
    (finalStoreAfter (applyChangesToBatch id
        { periods_per_cycle := 2, thread_count := 1, cycle_history_length := 5,
          db := [(rngSeedKey 0, bitvecSer [true])], cache := [(0, false)],
          initial_rolls := [], initial_seeds := [], initial_ledger_hash := [] }
        { seed_bits := [false], roll_changes := [], production_stats := [],
          deferred_credits := [(⟨1, 0⟩, [(5, 0)])] }
        ⟨0, 0⟩ false [])).bind (fun db => kvGet db (deferredCreditsKey ⟨1, 0⟩ 5)) =
      some (varint 0) := by
  rfl

/-- Claim C3 (refuting evaluation): the zero-sweep iterates the whole
state column family, so a `cycle_history` entry (the complete flag of an
incomplete cycle, value `[0]`) — a key outside the deferred-credits
prefix — is deleted by the sweep. -/
theorem zero_sweep_deletes_outside_deferred_prefix :
    deferredPrefixBytes.isPrefixOf (completeKey 0) = false ∧
    (removeDeferredCreditsZeros [(completeKey 0, [0])] []).map
        (fun b => kvGet (applyBatch [(completeKey 0, [0])] b) (completeKey 0)) =
      some none := by
  exact ⟨rfl, rfl⟩

/-! ### The composed final state and `finalize`

From `src/massa-final-state/src/final_state.rs`.  The ledger, async pool,
executed-ops and executed-denunciations components are external to the
core (their `apply_changes_to_batch` only contributes writes under their
own prefixes), so their contributions are modelled from the spec as
opaque batch fragments carried by `StateChanges`.  The MIP store's
`get_latest_component_version_at` for the `FinalStateHashKind` component
is modelled from the spec as a function from timestamps to versions. -/

/-- `StateChanges`: the per-slot finalize input.  The non-PoS components
are external; their batch writes are carried opaquely. -/
structure StateChanges where
  async_pool_ops : DBBatch
  pos_changes : PoSChanges
  ledger_ops : DBBatch
  executed_ops_ops : DBBatch
  executed_denunciations_ops : DBBatch

/-- `FinalState`: configuration, the MIP store view, the PoS state (which
holds the shared store's state column family) and the store's current
change id (the slot tag of the last committed batch). -/
structure FinalState where
  thread_count : Nat
  t0 : Nat
  genesis_timestamp : Nat
  periods_per_cycle : Nat
  mip_version_at : Nat → Nat
  pos : PoSState
  change_id : Slot

/-- `get_only_use_xor`: look the `FinalStateHashKind` component version up
at the slot's timestamp and compare it with 1; `none` models the `unwrap`
panic when the timestamp computation overflows. -/
def getOnlyUseXor (fs : FinalState) (slot : Slot) : Option Bool :=
  (getBlockSlotTimestamp fs.thread_count fs.t0 fs.genesis_timestamp slot).map
    fun ts => fs.mip_version_at ts == 1

/-- `feed_cycle_state_hash`: write the snapshot hash of a cycle present in
the history (through an immediately committed batch); `none` models the
panic when the cycle is not in the history. -/
def feedCycleStateHash (st : PoSState) (cycle : Nat) (hash : Bytes) :
    Option PoSState :=
  match getCycleIndex st.cache cycle with
  | some _ =>
    some { st with
      db := applyBatch st.db [(snapshotKey cycle, some (optHashSer (some hash)))] }
  | none => none

/-- `FinalState::finalize(slot, changes)`: check
`slot == next_slot(change_id)` (assert, fatal otherwise), assemble one
batch in the fixed order (async pool, PoS, ledger, executed ops, executed
denunciations), compute `only_use_xor` from the slot's timestamp, commit
the batch tagged with `slot`, and feed the new composed hash (abstracted
as `dbHash` of the store contents) to the slot's cycle. -/
def finalize (H : Bytes → Bytes) (dbHash : KV → Bytes) (fs : FinalState)
    (slot : Slot) (changes : StateChanges) : RunResult FinalState :=
  match getNextBlockSlot fs.thread_count fs.change_id with
  | none => .fatal
  | some next =>
    if slot ≠ next then .fatal
    else
      match applyChangesToBatch H fs.pos changes.pos_changes slot true
          ([] ++ changes.async_pool_ops) with
      | .err _ => .fatal
      | .fatal => .fatal
      | .ok (pos2, batch2, _) =>
        match getOnlyUseXor fs slot with
        | none => .fatal
        | some _ =>
          match feedCycleStateHash
              { pos2 with db := applyBatch pos2.db (batch2 ++ changes.ledger_ops ++
                  changes.executed_ops_ops ++ changes.executed_denunciations_ops) }
              (slotGetCycle slot fs.periods_per_cycle)
              (dbHash (applyBatch pos2.db (batch2 ++ changes.ledger_ops ++
                  changes.executed_ops_ops ++ changes.executed_denunciations_ops))) with
          | none => .fatal
          | some pos3 => .ok { fs with pos := pos3, change_id := slot }

/-- Claim C7: `finalize(slot, changes)` is fatal whenever `slot` differs
from the successor of the store's current change id (and when computing
that successor overflows), and every successful `finalize` happened with
`slot` equal to that successor and leaves the store's change id equal to
`slot` (the batch is committed tagged with the slot). -/
theorem finalize_slot_check (H : Bytes → Bytes) (dbHash : KV → Bytes)
    (fs : FinalState) (slot : Slot) (changes : StateChanges) :
    (∀ next, getNextBlockSlot fs.thread_count fs.change_id = some next →
        slot ≠ next → finalize H dbHash fs slot changes = .fatal) ∧
    (getNextBlockSlot fs.thread_count fs.change_id = none →
        finalize H dbHash fs slot changes = .fatal) ∧
    (∀ fs', finalize H dbHash fs slot changes = .ok fs' →
        getNextBlockSlot fs.thread_count fs.change_id = some slot ∧
        fs'.change_id = slot) := by
  refine ⟨?_, ?_, ?_⟩
  · intro next hnext hne
    simp only [finalize, hnext]
    rw [if_pos hne]
  · intro hnone
    simp only [finalize, hnone]
  · intro fs' hok
    unfold finalize at hok
    split at hok
    · exact absurd hok (by simp)
    rename_i next hnext
    split at hok
    · exact absurd hok (by simp)
    rename_i hne
    have hslot : slot = next := by
      by_contra hc
      exact hne hc
    subst hslot
    refine ⟨hnext, ?_⟩
    repeat' split at hok
    all_goals
      first
        | (obtain rfl := (RunResult.ok.inj hok).symm
           rfl)
        | exact absurd hok (by simp)

/-- A concrete final state used to exercise `finalize`: one incomplete
cycle 0 with one stored seed bit, change id at slot `(0,0)`. -/
def finalizeDemoState : FinalState :=
  { thread_count := 2, t0 := 2, genesis_timestamp := 0, periods_per_cycle := 2,
    mip_version_at := fun _ => 0,
    pos := { periods_per_cycle := 2, thread_count := 2, cycle_history_length := 5,
             db := [(rngSeedKey 0, bitvecSer [true])], cache := [(0, false)],
             initial_rolls := [], initial_seeds := [], initial_ledger_hash := [] },
    change_id := ⟨0, 0⟩ }

/-- A concrete per-slot change set: one seed bit, nothing else. -/
def finalizeDemoChanges : StateChanges :=
  { async_pool_ops := [], pos_changes := ⟨[false], [], [], []⟩,
    ledger_ops := [], executed_ops_ops := [], executed_denunciations_ops := [] }

/-- Witness for claim C7's theorem: finalizing the successor slot `(0,1)`
succeeds and tags the store with it, while finalizing the non-successor
slot `(1,1)` is fatal. -/
theorem finalize_slot_check_witness :
    (getNextBlockSlot finalizeDemoState.thread_count finalizeDemoState.change_id =
        some ⟨0, 1⟩ ∧
      (FinalState.mk 2 2 0 2 (fun _ => 0)
        ⟨2, 2, 5, [(rngSeedKey 0, bitvecSer [true, false]), (completeKey 0, [0]),
          (snapshotKey 0, [1, 7])], [(0, false)], [], [], []⟩
        ⟨0, 1⟩).change_id = ⟨0, 1⟩) ∧
    finalize id (fun _ => [7]) finalizeDemoState ⟨1, 1⟩ finalizeDemoChanges =
      .fatal := by
  constructor
  · exact (finalize_slot_check id (fun _ => [7]) finalizeDemoState ⟨0, 1⟩
      finalizeDemoChanges).2.2 _ rfl
  · exact (finalize_slot_check id (fun _ => [7]) finalizeDemoState ⟨1, 1⟩
      finalizeDemoChanges).1 ⟨0, 1⟩ (by decide) (by decide)

/-- Claim C9: the hash-scheme flag computed by `get_only_use_xor` equals
the `FinalStateHashKind` MIP component version at the slot's timestamp
compared with 1, and it depends only on the timing configuration, the MIP
store and the slot — not on the rest of the final state (its store
contents, change id), nor on any wall-clock input, which it does not
take. -/
theorem only_use_xor_from_slot_timestamp (fs : FinalState) (slot : Slot)
    (hT : 1 ≤ fs.thread_count) (ht0 : 1 ≤ fs.t0)
    (hdiv : fs.t0 % fs.thread_count = 0) :
    (∀ f, getOnlyUseXor fs slot = some f →
        f = (fs.mip_version_at (fs.genesis_timestamp +
          (fs.t0 / fs.thread_count) * slot.thread + fs.t0 * slot.period) == 1)) ∧
    (∀ fs2 : FinalState, fs2.thread_count = fs.thread_count → fs2.t0 = fs.t0 →
        fs2.genesis_timestamp = fs.genesis_timestamp →
        fs2.mip_version_at = fs.mip_version_at →
        getOnlyUseXor fs2 slot = getOnlyUseXor fs slot) := by
  constructor
  · intro f hf
    unfold getOnlyUseXor at hf
    cases hts : getBlockSlotTimestamp fs.thread_count fs.t0 fs.genesis_timestamp slot with
    | none => rw [hts] at hf; exact absurd hf (by simp)
    | some ts =>
      rw [hts, Option.map_some'] at hf
      have hts' := getBlockSlotTimestamp_eq (by omega) hts
      obtain rfl := Option.some.inj hf
      rw [← hts']
  · intro fs2 h1 h2 h3 h4
    unfold getOnlyUseXor
    rw [h1, h2, h3, h4]

/-- Witness for claim C9's theorem at a concrete configuration: the flag
at slot `(3, 1)` with a version-1 MIP store is `true`, matching the
version lookup at the slot's timestamp. -/
theorem only_use_xor_from_slot_timestamp_witness :
    (true : Bool) =
      ((fun _ : Nat => 1) (10000 + (2000 / 2) * 1 + 2000 * 3) == 1) := by
  exact (only_use_xor_from_slot_timestamp
      ⟨2, 2000, 10000, 2, fun _ => 1,
        ⟨2, 2, 5, [], [], [], [], []⟩, ⟨0, 0⟩⟩ ⟨3, 1⟩
      (by decide) (by decide) (by decide)).1 true (by decide)

end Massa
